import Mathlib

/-!
# TaskScheduler.cpp: queue, dependency map and worker loop

A shallow embedding of `src/TaskScheduler.cpp`.

* `std::unique_ptr<Job>` is `JobPtr = Option Job`; `none` is `nullptr`.
* `std::queue<std::unique_ptr<Job>>` is a list, front first.
* Every member function of `TaskQueue` runs under the queue mutex, so each call is one
  atomic state transformer.  `getTask` waits on the condition variable until
  `!tasks.empty() || stop`; a call made while that predicate is false has not
  returned, which is the outcome `Pop.blocked` with the state unchanged.
* `std::map<int, std::vector<int>>` is an association list read by first match; the
  operations keep its keys distinct.  Task ids are only stored and compared, never
  computed with, so `int` is `Int`.
* `execute()` is a virtual call that either returns or throws; a job object records
  which of the two its override does.
-/

namespace TaskScheduler

/-! ## Jobs -/

/-- A job object, an instance of some subclass of the abstract class `Job`.
`id` tells objects apart; `throws` says whether its `execute()` override raises an
exception instead of returning. -/
structure Job where
  id : Int
  throws : Bool
deriving DecidableEq, Repr

/-- The type `std::unique_ptr<Job>`: `none` is the null pointer. -/
abbrev JobPtr := Option Job

/-- What the exception thrown by a faulting `execute()` carries. -/
inductive ExecutionFault where
  | raised
deriving DecidableEq, Repr

/-- The virtual call `job->execute()`: returns normally or throws. -/
def Job.execute (job : Job) : Except ExecutionFault Unit :=
  if job.throws then .error .raised else .ok ()

def DiggingJob : Job := ⟨1, false⟩
def HaulingJob : Job := ⟨2, false⟩
def LiftingJob : Job := ⟨3, false⟩
def DrillingJob : Job := ⟨4, false⟩
def PavingJob : Job := ⟨5, false⟩

/-- The factory `JobFactory::createJob`: the null pointer for an unknown job type. -/
def JobFactory.createJob (jobType : Int) : JobPtr :=
  if jobType = 1 then some DiggingJob
  else if jobType = 2 then some HaulingJob
  else if jobType = 3 then some LiftingJob
  else if jobType = 4 then some DrillingJob
  else if jobType = 5 then some PavingJob
  else none

/-! ## TaskQueue -/

/-- The data members of `TaskQueue` (the mutex and the condition variable are the
atomicity of the operations below). -/
structure TaskQueue where
  tasks : List JobPtr
  stop : Bool
deriving DecidableEq, Repr

namespace TaskQueue

/-- A freshly constructed queue: no tasks, `stop = false`. -/
def init : TaskQueue := ⟨[], false⟩

/-- The member `addTask`: `tasks.push(std::move(job))`. -/
def addTask (q : TaskQueue) (job : JobPtr) : TaskQueue :=
  { q with tasks := q.tasks ++ [job] }

/-- The predicate of `cv.wait` in `getTask`. -/
def ready (q : TaskQueue) : Bool :=
  !q.tasks.isEmpty || q.stop

end TaskQueue

/-- Outcome of one `getTask` call: still waiting on the condition variable, or
returned with a pointer. -/
inductive Pop where
  | blocked
  | returned (job : JobPtr)
deriving DecidableEq, Repr

namespace TaskQueue

/-- The member `getTask`. -/
def getTask (q : TaskQueue) : Pop × TaskQueue :=
  if q.ready then
    match q.tasks with
    | [] => (.returned none, q)
    | job :: rest => (.returned job, { q with tasks := rest })
  else (.blocked, q)

/-- The member `stopProcessing`. -/
def stopProcessing (q : TaskQueue) : TaskQueue :=
  { q with stop := true }

end TaskQueue

/-! ## Sequences of queue calls -/

/-- One call on a `TaskQueue`. -/
inductive QueueOp where
  | addTask (job : JobPtr)
  | getTask
  | stopProcessing
deriving DecidableEq, Repr

/-- A queue together with the values its `getTask` calls have returned so far. -/
structure QueueRun where
  queue : TaskQueue
  results : List JobPtr
deriving DecidableEq, Repr

/-- Perform one call. A `getTask` that blocks returns nothing and changes nothing. -/
def QueueRun.apply (s : QueueRun) : QueueOp → QueueRun
  | .addTask job => { s with queue := s.queue.addTask job }
  | .getTask =>
    match s.queue.getTask with
    | (.blocked, q) => { s with queue := q }
    | (.returned job, q) => { queue := q, results := s.results ++ [job] }
  | .stopProcessing => { s with queue := s.queue.stopProcessing }

/-- Perform a sequence of calls, left to right. -/
def QueueRun.run (s : QueueRun) (ops : List QueueOp) : QueueRun :=
  ops.foldl QueueRun.apply s

/-- The pointers handed to `addTask` in a sequence of calls, in call order. -/
def addedPtrs : List QueueOp → List JobPtr
  | [] => []
  | .addTask job :: ops => job :: addedPtrs ops
  | _ :: ops => addedPtrs ops

/-- The jobs among a list of pointers (null pointers dropped). -/
def jobsOf (ptrs : List JobPtr) : List Job :=
  ptrs.filterMap id

/-! ## The worker loop -/

/-- How a call of `worker` ended. -/
inductive WorkerEnd where
  /-- Left the loop through `break` and returned. -/
  | returned
  /-- Waiting inside `getTask`; nothing more happens unless another thread acts. -/
  | blocked
  /-- The exception thrown by `job->execute()` left `worker`: the loop has no handler. -/
  | uncaught (job : Job)
  /-- The iteration budget of the model ran out before the loop ended. -/
  | outOfFuel
deriving DecidableEq, Repr

/-- What a call of `worker` leaves behind: how it ended, the queue, and the jobs on
which it called `execute()`, in call order. -/
structure WorkerRun where
  ending : WorkerEnd
  queue : TaskQueue
  invoked : List Job
deriving DecidableEq, Repr

/-- The function `worker`, run alone on the queue for at most `fuel` iterations of
its `while (true)` loop. -/
def worker : Nat → TaskQueue → List Job → WorkerRun
  | 0, taskQueue, invoked => ⟨.outOfFuel, taskQueue, invoked⟩
  | fuel + 1, taskQueue, invoked =>
    match taskQueue.getTask with
    | (.blocked, q) => ⟨.blocked, q, invoked⟩
    | (.returned none, q) => ⟨.returned, q, invoked⟩
    | (.returned (some job), q) =>
      match job.execute with
      | .ok _ => worker fuel q (invoked ++ [job])
      | .error _ => ⟨.uncaught job, q, invoked ++ [job]⟩

/-! ## TaskHierarchy -/

/-- The exception of `std::map::at`. -/
inductive MapError where
  | outOfRange
deriving DecidableEq, Repr

/-- The data member of `TaskHierarchy`: the map from a task id to its vector of
dependent task ids. -/
structure TaskHierarchy where
  dependencies : List (Int × List Int)
deriving DecidableEq, Repr

/-- The statement `m[key].push_back(value)` on a map: append to the vector stored at
`key`, inserting the key with an empty vector first when it is absent. -/
def pushBackAt : List (Int × List Int) → Int → Int → List (Int × List Int)
  | [], key, value => [(key, [value])]
  | (k, vs) :: rest, key, value =>
    if key = k then (k, vs ++ [value]) :: rest
    else (k, vs) :: pushBackAt rest key value

namespace TaskHierarchy

/-- A freshly constructed hierarchy: the empty map. -/
def init : TaskHierarchy := ⟨[]⟩

/-- The member `addDependency`: `dependencies[taskId].push_back(dependentTaskId)`. -/
def addDependency (h : TaskHierarchy) (taskId dependentTaskId : Int) : TaskHierarchy :=
  ⟨pushBackAt h.dependencies taskId dependentTaskId⟩

/-- The member `getDependencies`: `dependencies.at(taskId)`, which throws
`std::out_of_range` for a key that is not in the map. -/
def getDependencies (h : TaskHierarchy) (taskId : Int) : Except MapError (List Int) :=
  match h.dependencies.lookup taskId with
  | some vs => .ok vs
  | none => .error .outOfRange

/-- Perform a sequence of `addDependency(taskId, dependentTaskId)` calls, left to right. -/
def addAll (h : TaskHierarchy) (calls : List (Int × Int)) : TaskHierarchy :=
  calls.foldl (fun g c => g.addDependency c.1 c.2) h

/-- The stored edge `a → b`: `b` is in the vector stored at key `a`. -/
def Edge (h : TaskHierarchy) (a b : Int) : Prop :=
  b ∈ (h.dependencies.lookup a).getD []

instance (h : TaskHierarchy) (a b : Int) : Decidable (h.Edge a b) := by
  unfold Edge
  infer_instance

/-- Reachability through stored edges, in zero or more steps. -/
def Reaches (h : TaskHierarchy) (a b : Int) : Prop :=
  Relation.ReflTransGen h.Edge a b

/-- Some id lies on a cycle of stored edges. -/
def Cyclic (h : TaskHierarchy) : Prop :=
  ∃ a, Relation.TransGen h.Edge a a

/-- An execution order respects the stored edges: no task comes before one of its
prerequisites. -/
def Respects (h : TaskHierarchy) (order : List Int) : Prop :=
  order.Pairwise (fun earlier later => ¬ h.Edge later earlier)

instance (h : TaskHierarchy) (order : List Int) : Decidable (h.Respects order) := by
  unfold Respects
  infer_instance

end TaskHierarchy

/-! ## The scheduler of `main` -/

/-- The two objects `main` creates. -/
structure Scheduler where
  taskQueue : TaskQueue
  taskHierarchy : TaskHierarchy
deriving DecidableEq, Repr

/-- One worker thread of `main`, started as `worker(taskQueue)` and run alone: it is
handed the queue only. -/
def Scheduler.runWorker (fuel : Nat) (s : Scheduler) : Scheduler × WorkerRun :=
  let r := worker fuel s.taskQueue []
  ({ s with taskQueue := r.queue }, r)

/-! ## Worker threads sharing one queue

The calls `addTask`, `getTask` and `stopProcessing` each hold the queue mutex for their
whole body, so a run of the program is an interleaving of atomic events: a call of the
producer, the critical section of a `getTask` call of some worker thread, or the
`execute()` call of some worker thread. -/

/-- Where a worker thread stands in the loop of `worker`. -/
inductive Pc where
  /-- About to call `getTask`, or waiting inside it. -/
  | atGetTask
  /-- Holds `job`, the value `getTask` returned, and is about to call `job->execute()`. -/
  | atExecute (job : Job)
  /-- Left the loop through `break`; `worker` has returned. -/
  | returned
  /-- An exception left `worker`. -/
  | aborted
deriving DecidableEq, Repr

/-- A worker thread: its place in the loop and the jobs on which it has called
`execute()`, in call order. -/
structure WorkerThread where
  pc : Pc
  invoked : List Job
deriving DecidableEq, Repr

namespace WorkerThread

/-- A thread that has just been started on `worker`. -/
def start : WorkerThread := ⟨.atGetTask, []⟩

/-- The body of `getTask` followed by the test `if (!job) break`, for a thread at the
head of the loop. A thread elsewhere does nothing, and a thread whose wait predicate is
false stays where it is. -/
def stepGetTask (t : WorkerThread) (q : TaskQueue) : WorkerThread × TaskQueue :=
  match t.pc with
  | .atGetTask =>
    match q.getTask with
    | (.blocked, q2) => (t, q2)
    | (.returned none, q2) => ({ t with pc := .returned }, q2)
    | (.returned (some job), q2) => ({ t with pc := .atExecute job }, q2)
  | _ => (t, q)

/-- The call `job->execute()` of a thread that holds a job: back to the head of the
loop when it returns, out of `worker` when it throws. -/
def stepExecute (t : WorkerThread) : WorkerThread :=
  match t.pc with
  | .atExecute job =>
    match job.execute with
    | .ok _ => ⟨.atGetTask, t.invoked ++ [job]⟩
    | .error _ => ⟨.aborted, t.invoked ++ [job]⟩
  | _ => t

/-- The job a thread holds and has not executed yet. -/
def held (t : WorkerThread) : List Job :=
  match t.pc with
  | .atExecute job => [job]
  | _ => []

/-- The jobs `getTask` has handed to a thread so far. -/
def handed (t : WorkerThread) : List Job :=
  t.invoked ++ t.held

end WorkerThread

/-- One queue and the worker threads started on it. -/
structure System where
  taskQueue : TaskQueue
  workers : List WorkerThread
deriving DecidableEq, Repr

/-- One atomic event of a run. -/
inductive Event where
  | addTask (job : JobPtr)
  | stopProcessing
  | getTask (w : Nat)
  | execute (w : Nat)
deriving DecidableEq, Repr

/-- The jobs handed to the threads of a list. -/
def handedBy : List WorkerThread → List Job
  | [] => []
  | t :: ts => t.handed ++ handedBy ts

/-- The jobs executed by the threads of a list. -/
def invokedBy : List WorkerThread → List Job
  | [] => []
  | t :: ts => t.invoked ++ invokedBy ts

namespace System

/-- The state after `main` has created the queue and started `P` worker threads. -/
def start (P : Nat) : System := ⟨TaskQueue.init, List.replicate P WorkerThread.start⟩

/-- Perform one event. An event of a thread that does not exist does nothing. -/
def step (s : System) : Event → System
  | .addTask job => { s with taskQueue := s.taskQueue.addTask job }
  | .stopProcessing => { s with taskQueue := s.taskQueue.stopProcessing }
  | .getTask w =>
    match s.workers[w]? with
    | none => s
    | some t => ⟨(t.stepGetTask s.taskQueue).2, s.workers.set w (t.stepGetTask s.taskQueue).1⟩
  | .execute w =>
    match s.workers[w]? with
    | none => s
    | some t => { s with workers := s.workers.set w t.stepExecute }

/-- Perform a sequence of events, left to right. -/
def run (s : System) (es : List Event) : System :=
  es.foldl step s

/-- The jobs waiting in the queue. -/
def queued (s : System) : List Job := jobsOf s.taskQueue.tasks

/-- The jobs handed to some worker so far. -/
def handed (s : System) : List Job := handedBy s.workers

/-- The jobs executed by some worker so far. -/
def invoked (s : System) : List Job := invokedBy s.workers

/-- Every worker thread has returned from `worker`. -/
def AllReturned (s : System) : Prop := ∀ t ∈ s.workers, t.pc = .returned

instance (s : System) : Decidable s.AllReturned := by
  unfold AllReturned
  infer_instance

end System

/-- The jobs passed to `addTask` by the events of a run, in order. -/
def addedJobs : List Event → List Job
  | [] => []
  | .addTask job :: es => jobsOf [job] ++ addedJobs es
  | _ :: es => addedJobs es

/-- The runs in which every `addTask` passes a job and comes before `stopProcessing`;
`stopped` says whether `stopProcessing` has been called already. -/
def addsBeforeStop : Bool → List Event → Bool
  | _, [] => true
  | stopped, .addTask job :: es => !stopped && job.isSome && addsBeforeStop stopped es
  | _, .stopProcessing :: es => addsBeforeStop true es
  | stopped, _ :: es => addsBeforeStop stopped es

/-- The state of a run in which only jobs were added, all before `stopProcessing`:
no null pointer is queued, and once some worker has returned the stop flag is set and
the queue is empty. -/
def System.Settled (s : System) : Prop :=
  (∀ p ∈ s.taskQueue.tasks, p ≠ none) ∧
  ((∃ t ∈ s.workers, t.pc = .returned) → s.taskQueue.stop = true ∧ s.taskQueue.tasks = [])

/-! ## Proofs: TaskQueue -/

theorem jobsOf_append (xs ys : List JobPtr) : jobsOf (xs ++ ys) = jobsOf xs ++ jobsOf ys := by
  simp [jobsOf, List.filterMap_append]

theorem getTask_cons (p : JobPtr) (rest : List JobPtr) (b : Bool) :
    TaskQueue.getTask ⟨p :: rest, b⟩ = (.returned p, ⟨rest, b⟩) := by
  simp [TaskQueue.getTask, TaskQueue.ready]

theorem getTask_nil_stop : TaskQueue.getTask ⟨[], true⟩ = (.returned none, ⟨[], true⟩) := by
  simp [TaskQueue.getTask, TaskQueue.ready]

theorem getTask_nil_running : TaskQueue.getTask ⟨[], false⟩ = (.blocked, ⟨[], false⟩) := by
  simp [TaskQueue.getTask, TaskQueue.ready]

/-- One call keeps the balance: jobs returned so far, then jobs queued, are the jobs
returned and queued before, then the job the call added. -/
theorem apply_balance (s : QueueRun) (op : QueueOp) :
    jobsOf (s.apply op).results ++ jobsOf (s.apply op).queue.tasks
      = jobsOf s.results ++ jobsOf s.queue.tasks ++ jobsOf (addedPtrs [op]) := by
  obtain ⟨⟨tasks, stop⟩, results⟩ := s
  cases op with
  | addTask job =>
    simp [QueueRun.apply, TaskQueue.addTask, addedPtrs, jobsOf_append]
  | stopProcessing =>
    simp [QueueRun.apply, TaskQueue.stopProcessing, addedPtrs, jobsOf]
  | getTask =>
    cases tasks with
    | nil =>
      cases stop
      · simp [QueueRun.apply, getTask_nil_running, addedPtrs, jobsOf]
      · simp [QueueRun.apply, getTask_nil_stop, addedPtrs, jobsOf]
    | cons p rest =>
      cases p with
      | none => simp [QueueRun.apply, getTask_cons, addedPtrs, jobsOf]
      | some j => simp [QueueRun.apply, getTask_cons, addedPtrs, jobsOf]

theorem addedPtrs_cons (op : QueueOp) (ops : List QueueOp) :
    addedPtrs (op :: ops) = addedPtrs [op] ++ addedPtrs ops := by
  cases op <;> simp [addedPtrs]

theorem run_balance (ops : List QueueOp) (s : QueueRun) :
    jobsOf (s.run ops).results ++ jobsOf (s.run ops).queue.tasks
      = jobsOf s.results ++ jobsOf s.queue.tasks ++ jobsOf (addedPtrs ops) := by
  induction ops generalizing s with
  | nil => simp [QueueRun.run, addedPtrs, jobsOf]
  | cons op ops ih =>
    have h := ih (s.apply op)
    simp only [QueueRun.run, List.foldl_cons] at h ⊢
    rw [h, apply_balance, addedPtrs_cons op ops, jobsOf_append]
    simp [List.append_assoc]

/-- C1. FIFO order of `TaskQueue`: for every sequence of `addTask`, `getTask` (and
`stopProcessing`) calls on an initially empty queue, the jobs returned by `getTask`,
null results ignored, are an initial segment of the jobs passed to `addTask`, in the
same order; and three jobs added in the order T1, T2, T3 are popped in that order. -/
theorem taskQueue_fifo :
    (∀ ops : List QueueOp,
      jobsOf (QueueRun.run ⟨TaskQueue.init, []⟩ ops).results <+: jobsOf (addedPtrs ops)) ∧
    (∀ t1 t2 t3 : Job,
      (QueueRun.run ⟨TaskQueue.init, []⟩
        [.addTask (some t1), .addTask (some t2), .addTask (some t3),
         .getTask, .getTask, .getTask]).results = [some t1, some t2, some t3]) := by
  refine ⟨fun ops => ?_, fun t1 t2 t3 => ?_⟩
  · refine ⟨jobsOf (QueueRun.run ⟨TaskQueue.init, []⟩ ops).queue.tasks, ?_⟩
    rw [run_balance]
    simp [TaskQueue.init, jobsOf]
  · simp [QueueRun.run, QueueRun.apply, TaskQueue.addTask, TaskQueue.init, getTask_cons]

/-- C4 as stated fails: the queue reached from a fresh one by `addTask(nullptr)` and
then `addTask` of a job is not empty and its stop flag is not set, yet `getTask`
returns a null pointer, the front element, and the job stays queued. -/
theorem getTask_null_front_returns_null :
    (TaskQueue.init.addTask none).addTask (some DiggingJob)
      = ⟨[none, some DiggingJob], false⟩ ∧
    TaskQueue.getTask ⟨[none, some DiggingJob], false⟩
      = (.returned none, ⟨[some DiggingJob], false⟩) ∧
    ¬ ((⟨[none, some DiggingJob], false⟩ : TaskQueue).stop = true ∧
        (⟨[none, some DiggingJob], false⟩ : TaskQueue).tasks = []) := by
  decide

/-- C4 amended. Shutdown semantics of `getTask`, for every queue state `q`: with an
empty queue and `stop` set it returns the null sentinel and changes nothing; with a
non-empty queue it returns the front element and removes exactly that element, whatever
`stop` is, so also after `stopProcessing`; with an empty queue and `stop` not set it
blocks and changes nothing; the value returned is a null pointer if and only if either
`stop` is set and the queue is empty, or the front element of the queue is a null
pointer; so for a queue that holds jobs only, it is the null sentinel if and only if
`stop` is set and the queue is empty. -/
theorem getTask_shutdown_semantics (q : TaskQueue) :
    (q.tasks = [] → q.stop = true → q.getTask = (.returned none, q)) ∧
    (∀ p rest, q.tasks = p :: rest → q.getTask = (.returned p, ⟨rest, q.stop⟩)) ∧
    (∀ p rest, q.tasks = p :: rest →
      q.stopProcessing.getTask = (.returned p, ⟨rest, true⟩)) ∧
    (q.tasks = [] → q.stop = false → q.getTask = (.blocked, q)) ∧
    (q.getTask.1 = .returned none ↔
      ((q.stop = true ∧ q.tasks = []) ∨ q.tasks.head? = some none)) ∧
    ((∀ p ∈ q.tasks, p ≠ none) →
      (q.getTask.1 = .returned none ↔ (q.stop = true ∧ q.tasks = []))) := by
  obtain ⟨tasks, stop⟩ := q
  refine ⟨?_, ?_, ?_, ?_, ?_, ?_⟩
  · rintro rfl rfl
    exact getTask_nil_stop
  · rintro p rest rfl
    exact getTask_cons p rest stop
  · rintro p rest rfl
    exact getTask_cons p rest true
  · rintro rfl rfl
    exact getTask_nil_running
  · cases tasks with
    | nil => cases stop <;> simp [getTask_nil_stop, getTask_nil_running]
    | cons p rest =>
      rw [getTask_cons]
      constructor
      · intro h
        exact Or.inr (by rw [Pop.returned.inj h]; rfl)
      · rintro (⟨-, h⟩ | h)
        · exact absurd h (List.cons_ne_nil p rest)
        · simp only [List.head?_cons, Option.some.injEq] at h
          rw [h]
  · intro hjobs
    cases tasks with
    | nil => cases stop <;> simp [getTask_nil_stop, getTask_nil_running]
    | cons p rest =>
      have hp : p ≠ none := hjobs p (List.mem_cons_self p rest)
      rw [getTask_cons]
      constructor
      · intro h
        exact absurd (Pop.returned.inj h) hp
      · rintro ⟨-, h⟩
        exact absurd h (List.cons_ne_nil p rest)

/-- Witness for C4 amended: a queue holding one job after `stopProcessing` hands that
job out, and the drained queue then answers with the null sentinel. -/
theorem getTask_shutdown_semantics_witness :
    (∀ p ∈ (⟨[some DiggingJob], true⟩ : TaskQueue).tasks, p ≠ none) ∧
    ¬ (TaskQueue.getTask ⟨[some DiggingJob], true⟩).1 = .returned none ∧
    TaskQueue.getTask ⟨[some DiggingJob], true⟩ = (.returned (some DiggingJob), ⟨[], true⟩) ∧
    TaskQueue.getTask ⟨[], true⟩ = (.returned none, ⟨[], true⟩) :=
  ⟨by decide,
    fun h => absurd
      (((getTask_shutdown_semantics ⟨[some DiggingJob], true⟩).2.2.2.2.2 (by decide)).mp h).2
      (by decide),
    (getTask_shutdown_semantics ⟨[some DiggingJob], true⟩).2.1 _ _ rfl,
    (getTask_shutdown_semantics ⟨[], true⟩).1 rfl rfl⟩

/-! ## Proofs: the worker loop -/

theorem execute_ok (j : Job) (hj : j.throws = false) : j.execute = .ok () := by
  simp [Job.execute, hj]

theorem execute_error (j : Job) (hj : j.throws = true) : j.execute = .error .raised := by
  simp [Job.execute, hj]

theorem worker_step_ok (fuel : Nat) (j : Job) (rest : List JobPtr) (b : Bool)
    (log : List Job) (hj : j.throws = false) :
    worker (fuel + 1) ⟨some j :: rest, b⟩ log = worker fuel ⟨rest, b⟩ (log ++ [j]) := by
  simp [worker, getTask_cons, execute_ok j hj]

theorem worker_step_throw (fuel : Nat) (j : Job) (rest : List JobPtr) (b : Bool)
    (log : List Job) (hj : j.throws = true) :
    worker (fuel + 1) ⟨some j :: rest, b⟩ log = ⟨.uncaught j, ⟨rest, b⟩, log ++ [j]⟩ := by
  simp [worker, getTask_cons, execute_error j hj]

theorem worker_step_sentinel (fuel : Nat) (log : List Job) :
    worker (fuel + 1) ⟨[], true⟩ log = ⟨.returned, ⟨[], true⟩, log⟩ := by
  simp [worker, getTask_nil_stop]

/-- The worker works through a run of jobs that do not throw, one per iteration. -/
theorem worker_through (pre : List Job) (hpre : ∀ j ∈ pre, j.throws = false)
    (rest : List JobPtr) (b : Bool) (log : List Job) (fuel : Nat) :
    worker (pre.length + fuel) ⟨pre.map some ++ rest, b⟩ log
      = worker fuel ⟨rest, b⟩ (log ++ pre) := by
  induction pre generalizing log with
  | nil => simp
  | cons j pre ih =>
    have hj : j.throws = false := hpre j (List.mem_cons_self j pre)
    have hrest : ∀ x ∈ pre, x.throws = false := fun x hx => hpre x (List.mem_cons_of_mem j hx)
    have hfuel : (j :: pre).length + fuel = (pre.length + fuel) + 1 := by
      simp only [List.length_cons]; omega
    rw [hfuel, List.map_cons, List.cons_append, worker_step_ok _ _ _ _ _ hj, ih hrest]
    simp

theorem worker_drain (js : List Job) (hjs : ∀ j ∈ js, j.throws = false) (k : Nat) :
    worker (js.length + 1 + k) ⟨js.map some, true⟩ [] = ⟨.returned, ⟨[], true⟩, js⟩ := by
  have h := worker_through js hjs [] true [] (1 + k)
  rw [List.append_nil, ← Nat.add_assoc] at h
  rw [h, Nat.add_comm 1 k, worker_step_sentinel]
  simp

theorem worker_uncaught (pre : List Job) (a : Job) (post : List JobPtr) (b : Bool)
    (hpre : ∀ j ∈ pre, j.throws = false) (ha : a.throws = true) (k : Nat) :
    worker (pre.length + 1 + k) ⟨pre.map some ++ some a :: post, b⟩ []
      = ⟨.uncaught a, ⟨post, b⟩, pre ++ [a]⟩ := by
  have h := worker_through pre hpre (some a :: post) b [] (1 + k)
  rw [← Nat.add_assoc] at h
  rw [h, Nat.add_comm 1 k, worker_step_throw _ _ _ _ _ ha]
  simp

/-- C7 as stated fails: with `stop` set and the queue holding a job, then a job whose
`execute()` throws, then a third job, the worker ends in its second iteration with the
exception uncaught; the third job is still queued and was never executed, and no
number of iterations makes the worker leave the loop by `break`. -/
theorem worker_does_not_drain_past_fault :
    worker 4 ⟨[some DiggingJob, some ⟨7, true⟩, some PavingJob], true⟩ []
      = ⟨.uncaught ⟨7, true⟩, ⟨[some PavingJob], true⟩, [DiggingJob, ⟨7, true⟩]⟩ ∧
    ¬ ∃ fuel,
      (worker fuel ⟨[some DiggingJob, some ⟨7, true⟩, some PavingJob], true⟩ []).ending
        = .returned := by
  refine ⟨by decide, ?_⟩
  rintro ⟨fuel, h⟩
  rcases fuel with _ | _ | n
  · simp [worker] at h
  · rw [worker_step_ok 0 DiggingJob _ _ _ rfl] at h
    simp [worker] at h
  · rw [worker_step_ok (n + 1) DiggingJob _ _ _ rfl,
      worker_step_throw n ⟨7, true⟩ _ _ _ rfl] at h
    simp at h

/-- C7 amended. The worker drains and exits on shutdown: for every queue content `js`
of jobs whose `execute()` returns, with `stop` set and nothing else touching the queue,
the loop ends by `break` in iteration `js.length + 1`, having called `execute()` on
exactly `js` in queue order and leaving the queue empty; after any smaller number of
iterations it is still running, with the jobs popped so far executed and the others
still queued; and the `getTask` call of the last iteration returns the null sentinel. -/
theorem worker_drains_and_exits (js : List Job) (hjs : ∀ j ∈ js, j.throws = false) :
    (∀ k, worker (js.length + 1 + k) ⟨js.map some, true⟩ []
        = ⟨.returned, ⟨[], true⟩, js⟩) ∧
    (∀ n, n ≤ js.length →
      worker n ⟨js.map some, true⟩ []
        = ⟨.outOfFuel, ⟨(js.drop n).map some, true⟩, js.take n⟩) ∧
    TaskQueue.getTask ⟨(js.drop js.length).map some, true⟩ = (.returned none, ⟨[], true⟩) := by
  refine ⟨worker_drain js hjs, ?_, ?_⟩
  · intro n hn
    have htake : ∀ j ∈ js.take n, j.throws = false :=
      fun j hj => hjs j (List.mem_of_mem_take hj)
    have h := worker_through (js.take n) htake ((js.drop n).map some) true [] 0
    rw [← List.map_append, List.take_append_drop, List.length_take,
      Nat.min_eq_left hn] at h
    simpa [worker] using h
  · simp [getTask_nil_stop]

/-- Witness for C7 amended: three jobs queued, shutdown requested. -/
theorem worker_drains_and_exits_witness :
    (∀ j ∈ [DiggingJob, HaulingJob, LiftingJob], j.throws = false) ∧
    worker 4 ⟨[some DiggingJob, some HaulingJob, some LiftingJob], true⟩ []
      = ⟨.returned, ⟨[], true⟩, [DiggingJob, HaulingJob, LiftingJob]⟩ :=
  ⟨by decide, (worker_drains_and_exits [DiggingJob, HaulingJob, LiftingJob] (by decide)).1 0⟩

/-- C2 as stated fails: the edge 1 → 2 is recorded, job 2 is queued before job 1, and
the worker calls `execute()` on job 2 first, an order that does not respect the edge;
and when job 1 throws, job 2 has been executed all the same. -/
theorem dependency_gating_absent :
    (TaskHierarchy.init.addDependency 1 2).Edge 1 2 ∧
    (Scheduler.runWorker 3
        ⟨⟨[some ⟨2, false⟩, some ⟨1, false⟩], true⟩, TaskHierarchy.init.addDependency 1 2⟩).2
      = ⟨.returned, ⟨[], true⟩, [⟨2, false⟩, ⟨1, false⟩]⟩ ∧
    ¬ (TaskHierarchy.init.addDependency 1 2).Respects [2, 1] ∧
    (Scheduler.runWorker 3
        ⟨⟨[some ⟨2, false⟩, some ⟨1, true⟩], true⟩, TaskHierarchy.init.addDependency 1 2⟩).2
      = ⟨.uncaught ⟨1, true⟩, ⟨[], true⟩, [⟨2, false⟩, ⟨1, true⟩]⟩ := by
  refine ⟨by decide, by decide, by decide, by decide⟩

/-- C2 amended. The worker is handed the queue only and never reads the dependency
map: for every dependency map `h` and every queue content `js` of jobs whose
`execute()` returns, with `stop` set, the worker executes exactly `js` in queue order
and leaves `h` as it was, so the execution order respects the recorded edges exactly
when the queue order does; and when a job whose `execute()` throws is queued behind
`js`, the jobs `js` queued ahead of it have been executed and nothing queued behind it
is. -/
theorem worker_runs_in_queue_order (h : TaskHierarchy) (js : List Job)
    (hjs : ∀ j ∈ js, j.throws = false) (k : Nat) :
    Scheduler.runWorker (js.length + 1 + k) ⟨⟨js.map some, true⟩, h⟩
      = (⟨⟨[], true⟩, h⟩, ⟨.returned, ⟨[], true⟩, js⟩) ∧
    (h.Respects
        ((Scheduler.runWorker (js.length + 1 + k) ⟨⟨js.map some, true⟩, h⟩).2.invoked.map Job.id)
      ↔ h.Respects (js.map Job.id)) ∧
    (∀ (a : Job) (post : List JobPtr), a.throws = true →
      Scheduler.runWorker (js.length + 1 + k) ⟨⟨js.map some ++ some a :: post, true⟩, h⟩
        = (⟨⟨post, true⟩, h⟩, ⟨.uncaught a, ⟨post, true⟩, js ++ [a]⟩)) := by
  have hrun : Scheduler.runWorker (js.length + 1 + k) ⟨⟨js.map some, true⟩, h⟩
      = (⟨⟨[], true⟩, h⟩, ⟨.returned, ⟨[], true⟩, js⟩) := by
    simp [Scheduler.runWorker, worker_drain js hjs k]
  refine ⟨hrun, by rw [hrun], fun a post ha => ?_⟩
  simp [Scheduler.runWorker, worker_uncaught js a post true hjs ha k]

/-- Witness for C2 amended: edges 1 → 2 → 3 recorded, jobs queued as 3, 2, 1. -/
theorem worker_runs_in_queue_order_witness :
    (∀ j ∈ [(⟨3, false⟩ : Job), ⟨2, false⟩, ⟨1, false⟩], j.throws = false) ∧
    Scheduler.runWorker 4
        ⟨⟨[some ⟨3, false⟩, some ⟨2, false⟩, some ⟨1, false⟩], true⟩,
          (TaskHierarchy.init.addDependency 1 2).addDependency 2 3⟩
      = (⟨⟨[], true⟩, (TaskHierarchy.init.addDependency 1 2).addDependency 2 3⟩,
         ⟨.returned, ⟨[], true⟩, [⟨3, false⟩, ⟨2, false⟩, ⟨1, false⟩]⟩) :=
  ⟨by decide,
    (worker_runs_in_queue_order ((TaskHierarchy.init.addDependency 1 2).addDependency 2 3)
      [⟨3, false⟩, ⟨2, false⟩, ⟨1, false⟩] (by decide) 0).1⟩

/-! ## Proofs: TaskHierarchy -/

theorem lookup_cons_self (k : Int) (vs : List Int) (m : List (Int × List Int)) :
    List.lookup k ((k, vs) :: m) = some vs := by
  simp [List.lookup_cons]

theorem lookup_cons_ne (t k : Int) (vs : List Int) (m : List (Int × List Int)) (h : t ≠ k) :
    List.lookup t ((k, vs) :: m) = List.lookup t m := by
  have hb : (t == k) = false := by simpa using h
  simp [List.lookup_cons, hb]

/-- Reading the map after `m[a].push_back(b)`. -/
theorem lookup_pushBackAt (m : List (Int × List Int)) (a b t : Int) :
    (pushBackAt m a b).lookup t
      = if t = a then some ((m.lookup a).getD [] ++ [b]) else m.lookup t := by
  induction m with
  | nil =>
    by_cases h : t = a
    · subst h; simp [pushBackAt, lookup_cons_self]
    · simp [pushBackAt, lookup_cons_ne _ _ _ _ h, h]
  | cons e m ih =>
    obtain ⟨k, vs⟩ := e
    by_cases hak : a = k
    · subst hak
      by_cases h : t = a
      · subst h; simp [pushBackAt, lookup_cons_self]
      · simp [pushBackAt, lookup_cons_ne _ _ _ _ h, h]
    · by_cases h : t = a
      · subst h
        simp [pushBackAt, hak, lookup_cons_ne _ _ _ _ hak, ih]
      · by_cases htk : t = k
        · subst htk; simp [pushBackAt, hak, lookup_cons_self, h]
        · simp [pushBackAt, hak, lookup_cons_ne _ _ _ _ htk, ih, h]

theorem lookup_addDependency (h : TaskHierarchy) (a b t : Int) :
    (h.addDependency a b).dependencies.lookup t
      = if t = a then some ((h.dependencies.lookup a).getD [] ++ [b])
        else h.dependencies.lookup t :=
  lookup_pushBackAt h.dependencies a b t

theorem getDependencies_addDependency_self (h : TaskHierarchy) (a b : Int) :
    (h.addDependency a b).getDependencies a
      = .ok ((h.dependencies.lookup a).getD [] ++ [b]) := by
  simp [TaskHierarchy.getDependencies, lookup_addDependency]

theorem getDependencies_addDependency_other (h : TaskHierarchy) (a b k : Int) (hk : k ≠ a) :
    (h.addDependency a b).getDependencies k = h.getDependencies k := by
  simp [TaskHierarchy.getDependencies, lookup_addDependency, hk]

theorem edge_addDependency_new (h : TaskHierarchy) (a b : Int) :
    (h.addDependency a b).Edge a b := by
  simp [TaskHierarchy.Edge, lookup_addDependency]

theorem edge_addDependency_old (h : TaskHierarchy) (a b x y : Int) (hxy : h.Edge x y) :
    (h.addDependency a b).Edge x y := by
  unfold TaskHierarchy.Edge at hxy ⊢
  rw [lookup_addDependency]
  by_cases hx : x = a
  · subst hx
    simp only [if_true, Option.getD_some, List.mem_append]
    exact Or.inl hxy
  · simpa [hx] using hxy

theorem lookup_eq_none_of_getDependencies (h : TaskHierarchy) (a : Int)
    (ha : h.getDependencies a = .error .outOfRange) : h.dependencies.lookup a = none := by
  unfold TaskHierarchy.getDependencies at ha
  cases hl : h.dependencies.lookup a with
  | none => rfl
  | some vs => simp [hl] at ha

theorem addAll_snoc (h : TaskHierarchy) (calls : List (Int × Int)) (c : Int × Int) :
    h.addAll (calls ++ [c]) = (h.addAll calls).addDependency c.1 c.2 := by
  simp [TaskHierarchy.addAll, List.foldl_append]

/-- Reading the map built from the empty map by a sequence of calls. -/
theorem lookup_addAll (calls : List (Int × Int)) (t : Int) :
    (TaskHierarchy.init.addAll calls).dependencies.lookup t
      = if ∃ c ∈ calls, c.1 = t then
          some ((calls.filter (fun c => c.1 = t)).map (fun c => c.2))
        else none := by
  induction calls using List.reverseRecOn with
  | nil => simp [TaskHierarchy.addAll, TaskHierarchy.init]
  | append_singleton calls c ih =>
    rw [addAll_snoc, lookup_addDependency]
    have hfilter : (calls ++ [c]).filter (fun d => decide (d.1 = t))
        = calls.filter (fun d => decide (d.1 = t)) ++ (if c.1 = t then [c] else []) := by
      rw [List.filter_append]
      by_cases hc : c.1 = t <;> simp [hc]
    by_cases htc : t = c.1
    · subst htc
      have hex2 : ∃ d ∈ calls ++ [c], d.1 = c.1 := ⟨c, by simp, rfl⟩
      rw [if_pos hex2, if_pos rfl, ih, hfilter, if_pos rfl]
      by_cases hex : ∃ d ∈ calls, d.1 = c.1
      · rw [if_pos hex]
        simp
      · have hnil : calls.filter (fun d => decide (d.1 = c.1)) = [] := by
          rw [List.filter_eq_nil_iff]
          intro d hd
          simpa using fun hdc => hex ⟨d, hd, hdc⟩
        rw [if_neg hex, hnil]
        simp
    · have hct : ¬ c.1 = t := fun hc => htc hc.symm
      rw [if_neg htc, ih, hfilter, if_neg hct, List.append_nil]
      by_cases hex : ∃ d ∈ calls, d.1 = t
      · have hex2 : ∃ d ∈ calls ++ [c], d.1 = t := by
          obtain ⟨d, hd, hdt⟩ := hex
          exact ⟨d, List.mem_append_left _ hd, hdt⟩
        rw [if_pos hex, if_pos hex2]
      · have hex2 : ¬ ∃ d ∈ calls ++ [c], d.1 = t := by
          rintro ⟨d, hd, hdt⟩
          rcases List.mem_append.mp hd with hd | hd
          · exact hex ⟨d, hd, hdt⟩
          · rw [List.mem_singleton] at hd
            subst hd
            exact hct hdt
        rw [if_neg hex, if_neg hex2]

/-- C10. Reference semantics of the dependency map: after any sequence of
`addDependency` calls on a fresh hierarchy, `getDependencies(t)` succeeds exactly when
`t` was the first argument of some call, and then returns the second arguments of the
calls with first argument `t`, in call order with duplicates kept; for every other `t`
it fails with `std::out_of_range`, also for an id that only occurred as a dependent;
and `addDependency(a, b)` leaves what `getDependencies` gives for every other key as
it was. -/
theorem dependency_map_reference_semantics :
    (∀ (calls : List (Int × Int)) (t : Int),
      (TaskHierarchy.init.addAll calls).getDependencies t
        = if ∃ c ∈ calls, c.1 = t then
            .ok ((calls.filter (fun c => c.1 = t)).map (fun c => c.2))
          else .error .outOfRange) ∧
    (∀ (h : TaskHierarchy) (a b k : Int), k ≠ a →
      (h.addDependency a b).getDependencies k = h.getDependencies k) := by
  refine ⟨fun calls t => ?_, getDependencies_addDependency_other⟩
  unfold TaskHierarchy.getDependencies
  rw [lookup_addAll]
  by_cases hex : ∃ c ∈ calls, c.1 = t
  · simp only [hex, if_true]
  · simp only [hex, if_false]

/-- C3 as stated fails: after `addDependency(1, 2)` the id 2 is reachable from 1, yet
`addDependency(2, 1)` changes the map, stores the edge 2 → 1, and the stored edges
then contain the cycle 1 → 2 → 1. -/
theorem cycle_not_rejected :
    (TaskHierarchy.init.addDependency 1 2).Reaches 1 2 ∧
    (TaskHierarchy.init.addDependency 1 2).addDependency 2 1
      ≠ TaskHierarchy.init.addDependency 1 2 ∧
    ((TaskHierarchy.init.addDependency 1 2).addDependency 2 1).getDependencies 2 = .ok [1] ∧
    ((TaskHierarchy.init.addDependency 1 2).addDependency 2 1).Cyclic := by
  refine ⟨Relation.ReflTransGen.single (by decide), by decide, rfl, 1, ?_⟩
  have h12 : ((TaskHierarchy.init.addDependency 1 2).addDependency 2 1).Edge 1 2 := by decide
  have h21 : ((TaskHierarchy.init.addDependency 1 2).addDependency 2 1).Edge 2 1 := by decide
  exact Relation.TransGen.tail (Relation.TransGen.single h12) h21

/-- C3 amended. `addDependency` makes no reachability check: for every dependency map
and every pair of ids such that `prerequisiteId` is already reachable from
`dependentId` through stored edges (the two may be equal), the call appends
`dependentId` to the list of `prerequisiteId`, keeps every edge stored before, and the
stored edges then contain a cycle through `prerequisiteId`. -/
theorem addDependency_closes_cycle (h : TaskHierarchy) (prerequisiteId dependentId : Int)
    (hreach : h.Reaches dependentId prerequisiteId) :
    (h.addDependency prerequisiteId dependentId).getDependencies prerequisiteId
      = .ok ((h.dependencies.lookup prerequisiteId).getD [] ++ [dependentId]) ∧
    (∀ x y, h.Edge x y → (h.addDependency prerequisiteId dependentId).Edge x y) ∧
    Relation.TransGen (h.addDependency prerequisiteId dependentId).Edge
      prerequisiteId prerequisiteId ∧
    (h.addDependency prerequisiteId dependentId).Cyclic := by
  have hold := edge_addDependency_old h prerequisiteId dependentId
  have hcyc : Relation.TransGen (h.addDependency prerequisiteId dependentId).Edge
      prerequisiteId prerequisiteId :=
    Relation.TransGen.head' (edge_addDependency_new h prerequisiteId dependentId)
      (Relation.ReflTransGen.mono hold hreach)
  exact ⟨getDependencies_addDependency_self h prerequisiteId dependentId, hold, hcyc,
    prerequisiteId, hcyc⟩

/-- Witness for C3 amended: the map holding 1 → 2, and the call `addDependency(2, 1)`. -/
theorem addDependency_closes_cycle_witness :
    (TaskHierarchy.init.addDependency 1 2).Reaches 1 2 ∧
    ((TaskHierarchy.init.addDependency 1 2).addDependency 2 1).Cyclic :=
  ⟨Relation.ReflTransGen.single (by decide),
    (addDependency_closes_cycle (TaskHierarchy.init.addDependency 1 2) 2 1
      (Relation.ReflTransGen.single (by decide))).2.2.2⟩

/-- C9 as stated fails: on a fresh hierarchy, where no id was ever seen, the call
`addDependency(1, 2)` of `main` creates the key 1 and stores the edge 1 → 2. -/
theorem unknown_ids_not_rejected :
    TaskHierarchy.init.getDependencies 1 = .error .outOfRange ∧
    TaskHierarchy.init.getDependencies 2 = .error .outOfRange ∧
    (TaskHierarchy.init.addDependency 1 2).getDependencies 1 = .ok [2] ∧
    TaskHierarchy.init.addDependency 1 2 ≠ TaskHierarchy.init :=
  ⟨rfl, rfl, rfl, by decide⟩

/-- C9 amended. `addDependency` keeps no registry of ids: for every dependency map and
every pair of ids, when `prerequisiteId` is not yet a key the call creates that key
with the one-element list `[dependentId]`, so the edge is stored; and `dependentId`,
when it is another id that is not a key, is still not a key afterwards. -/
theorem addDependency_accepts_unknown_ids (h : TaskHierarchy)
    (prerequisiteId dependentId : Int)
    (hnew : h.getDependencies prerequisiteId = .error .outOfRange) :
    (h.addDependency prerequisiteId dependentId).getDependencies prerequisiteId
      = .ok [dependentId] ∧
    (h.addDependency prerequisiteId dependentId).Edge prerequisiteId dependentId ∧
    (dependentId ≠ prerequisiteId →
      h.getDependencies dependentId = .error .outOfRange →
      (h.addDependency prerequisiteId dependentId).getDependencies dependentId
        = .error .outOfRange) := by
  refine ⟨?_, edge_addDependency_new h prerequisiteId dependentId, ?_⟩
  · rw [getDependencies_addDependency_self,
      lookup_eq_none_of_getDependencies h prerequisiteId hnew]
    rfl
  · intro hne hdep
    rw [getDependencies_addDependency_other h _ _ _ hne]
    exact hdep

/-- Witness for C9 amended: the fresh hierarchy and the call `addDependency(1, 2)`. -/
theorem addDependency_accepts_unknown_ids_witness :
    TaskHierarchy.init.getDependencies 1 = .error .outOfRange ∧
    (TaskHierarchy.init.addDependency 1 2).getDependencies 1 = .ok [2] :=
  ⟨rfl, (addDependency_accepts_unknown_ids TaskHierarchy.init 1 2 rfl).1⟩

/-! ## Proofs: adding after shutdown -/

/-- A queue of `n` pointers answers `n` successive `getTask` calls with those pointers,
front first, whatever `stop` is. -/
theorem run_getTask_all (tasks : List JobPtr) (b : Bool) (results : List JobPtr) :
    QueueRun.run ⟨⟨tasks, b⟩, results⟩ (List.replicate tasks.length .getTask)
      = ⟨⟨[], b⟩, results ++ tasks⟩ := by
  induction tasks generalizing results with
  | nil => simp [QueueRun.run]
  | cons p rest ih =>
    have h := ih (results ++ [p])
    simp only [QueueRun.run] at h
    simp [QueueRun.run, List.replicate_succ, QueueRun.apply, getTask_cons, h]

/-- C5 as stated fails: after `stopProcessing` on a fresh queue, `addTask` of a job
changes the queue, the job is in it, and the next `getTask` returns that job. -/
theorem addTask_after_stop_accepted :
    TaskQueue.init.stopProcessing.addTask (some DiggingJob) = ⟨[some DiggingJob], true⟩ ∧
    TaskQueue.init.stopProcessing.addTask (some DiggingJob) ≠ TaskQueue.init.stopProcessing ∧
    (TaskQueue.init.stopProcessing.addTask (some DiggingJob)).getTask
      = (.returned (some DiggingJob), ⟨[], true⟩) := by
  decide

/-- C5 amended. `addTask` does not read the stop flag: for every queue state, after
`stopProcessing` an `addTask` appends the pointer at the back of the queue and leaves
`stop` set, and the `getTask` calls that follow return the pointers queued before and
then the new one. -/
theorem addTask_after_stop_appends (q : TaskQueue) (job : JobPtr) :
    q.stopProcessing.addTask job = ⟨q.tasks ++ [job], true⟩ ∧
    QueueRun.run ⟨q.stopProcessing.addTask job, []⟩
        (List.replicate (q.tasks.length + 1) .getTask)
      = ⟨⟨[], true⟩, q.tasks ++ [job]⟩ := by
  have hadd : q.stopProcessing.addTask job = ⟨q.tasks ++ [job], true⟩ := rfl
  refine ⟨hadd, ?_⟩
  have h := run_getTask_all (q.tasks ++ [job]) true []
  rw [List.length_append, List.length_singleton, List.nil_append] at h
  rw [hadd]
  exact h

/-! ## Proofs: worker threads sharing one queue -/

theorem workers_split {ws : List WorkerThread} {w : Nat} {t : WorkerThread}
    (h : ws[w]? = some t) :
    ∃ pre post, ws = pre ++ t :: post ∧ ∀ u, ws.set w u = pre ++ u :: post := by
  induction ws generalizing w with
  | nil => simp at h
  | cons a ws ih =>
    cases w with
    | zero =>
      simp only [List.getElem?_cons_zero, Option.some.injEq] at h
      subst h
      exact ⟨[], ws, rfl, fun u => rfl⟩
    | succ n =>
      simp only [List.getElem?_cons_succ] at h
      obtain ⟨pre, post, hws, hset⟩ := ih h
      refine ⟨a :: pre, post, by rw [hws]; rfl, fun u => ?_⟩
      rw [List.set_cons_succ, hset u]
      rfl

theorem handedBy_append (xs ys : List WorkerThread) :
    handedBy (xs ++ ys) = handedBy xs ++ handedBy ys := by
  induction xs with
  | nil => rfl
  | cons x xs ih => simp [handedBy, ih]

/-- A `getTask` step of one thread moves at most one job from the queue to the thread. -/
theorem stepGetTask_count (t : WorkerThread) (q : TaskQueue) (a : Job) :
    List.count a (jobsOf (t.stepGetTask q).2.tasks) + List.count a (t.stepGetTask q).1.handed
      = List.count a (jobsOf q.tasks) + List.count a t.handed := by
  obtain ⟨pc, inv⟩ := t
  obtain ⟨tasks, stop⟩ := q
  cases pc with
  | atGetTask =>
    cases tasks with
    | nil =>
      cases stop
      · simp [WorkerThread.stepGetTask, getTask_nil_running]
      · simp [WorkerThread.stepGetTask, getTask_nil_stop, WorkerThread.handed,
          WorkerThread.held]
    | cons p rest =>
      cases p with
      | none =>
        simp [WorkerThread.stepGetTask, getTask_cons, WorkerThread.handed,
          WorkerThread.held, jobsOf]
      | some j =>
        have hj : jobsOf (some j :: rest) = [j] ++ jobsOf rest := by simp [jobsOf]
        simp only [WorkerThread.stepGetTask, getTask_cons, WorkerThread.handed,
          WorkerThread.held, hj, List.count_append, List.count_nil]
        omega
  | atExecute j => simp [WorkerThread.stepGetTask]
  | returned => simp [WorkerThread.stepGetTask]
  | aborted => simp [WorkerThread.stepGetTask]

/-- An `execute()` step keeps the jobs handed to the thread. -/
theorem stepExecute_handed (t : WorkerThread) : t.stepExecute.handed = t.handed := by
  obtain ⟨pc, inv⟩ := t
  cases pc with
  | atExecute j =>
    cases hj : j.throws
    · simp [WorkerThread.stepExecute, execute_ok j hj, WorkerThread.handed, WorkerThread.held]
    · simp [WorkerThread.stepExecute, execute_error j hj, WorkerThread.handed,
        WorkerThread.held]
  | atGetTask => rfl
  | returned => rfl
  | aborted => rfl

/-- One event keeps the balance of jobs: queued plus handed out afterwards is queued
plus handed out before, plus the job the event added. -/
theorem step_count (s : System) (e : Event) (a : Job) :
    List.count a (s.step e).queued + List.count a (s.step e).handed
      = List.count a s.queued + List.count a s.handed + List.count a (addedJobs [e]) := by
  obtain ⟨q, ws⟩ := s
  cases e with
  | addTask job =>
    simp only [System.step, System.queued, System.handed, TaskQueue.addTask, addedJobs,
      jobsOf_append, List.count_append, List.count_nil]
    omega
  | stopProcessing =>
    simp [System.step, System.queued, System.handed, TaskQueue.stopProcessing, addedJobs]
  | getTask w =>
    cases hw : ws[w]? with
    | none => simp [System.step, hw, addedJobs]
    | some t =>
      obtain ⟨pre, post, hws, hset⟩ := workers_split hw
      have ht := stepGetTask_count t q a
      simp only [System.step, hw, System.queued, System.handed, hset, addedJobs]
      rw [hws]
      simp only [handedBy_append, handedBy, List.count_append, List.count_nil]
      omega
  | execute w =>
    cases hw : ws[w]? with
    | none => simp [System.step, hw, addedJobs]
    | some t =>
      obtain ⟨pre, post, hws, hset⟩ := workers_split hw
      simp only [System.step, hw, System.queued, System.handed, hset, addedJobs]
      rw [hws]
      simp only [handedBy_append, handedBy, stepExecute_handed, List.count_append,
        List.count_nil]
      omega

theorem addedJobs_cons (e : Event) (es : List Event) :
    addedJobs (e :: es) = addedJobs [e] ++ addedJobs es := by
  cases e <;> simp [addedJobs]

theorem run_count (es : List Event) (s : System) (a : Job) :
    List.count a (s.run es).queued + List.count a (s.run es).handed
      = List.count a s.queued + List.count a s.handed + List.count a (addedJobs es) := by
  induction es generalizing s with
  | nil => simp [System.run, addedJobs]
  | cons e es ih =>
    have h := ih (s.step e)
    simp only [System.run, List.foldl_cons] at h ⊢
    rw [h, step_count, addedJobs_cons e es, List.count_append]
    omega

theorem step_workers_length (s : System) (e : Event) :
    (s.step e).workers.length = s.workers.length := by
  cases e with
  | addTask job => rfl
  | stopProcessing => rfl
  | getTask w =>
    cases hw : s.workers[w]? with
    | none => simp [System.step, hw]
    | some t => simp [System.step, hw]
  | execute w =>
    cases hw : s.workers[w]? with
    | none => simp [System.step, hw]
    | some t => simp [System.step, hw]

theorem run_workers_length (es : List Event) (s : System) :
    (s.run es).workers.length = s.workers.length := by
  induction es generalizing s with
  | nil => rfl
  | cons e es ih =>
    have h := ih (s.step e)
    simp only [System.run, List.foldl_cons] at h ⊢
    rw [h, step_workers_length]

theorem returned_of_replace {pre post : List WorkerThread} {t u : WorkerThread}
    (hu : u.pc = .returned → t.pc = .returned)
    (h : ∃ x ∈ pre ++ u :: post, x.pc = .returned) :
    ∃ x ∈ pre ++ t :: post, x.pc = .returned := by
  obtain ⟨x, hx, hpc⟩ := h
  rcases List.mem_append.mp hx with hx | hx
  · exact ⟨x, List.mem_append_left _ hx, hpc⟩
  · rcases List.mem_cons.mp hx with hx | hx
    · subst hx
      exact ⟨t, by simp, hu hpc⟩
    · exact ⟨x, by simp [hx], hpc⟩

/-- A `getTask` step of a thread keeps `Settled`. -/
theorem stepGetTask_settled (q : TaskQueue) (pre post : List WorkerThread) (t : WorkerThread)
    (hs : System.Settled ⟨q, pre ++ t :: post⟩) :
    System.Settled ⟨(t.stepGetTask q).2, pre ++ (t.stepGetTask q).1 :: post⟩ ∧
    (t.stepGetTask q).2.stop = q.stop := by
  obtain ⟨pc, inv⟩ := t
  obtain ⟨tasks, stop⟩ := q
  cases pc with
  | atGetTask =>
    cases tasks with
    | nil =>
      cases stop
      · simpa [WorkerThread.stepGetTask, getTask_nil_running] using hs
      · refine ⟨⟨?_, ?_⟩, ?_⟩
        · simp [WorkerThread.stepGetTask, getTask_nil_stop]
        · intro _
          simp [WorkerThread.stepGetTask, getTask_nil_stop]
        · simp [WorkerThread.stepGetTask, getTask_nil_stop]
    | cons p rest =>
      cases p with
      | none => exact absurd rfl (hs.1 none (List.mem_cons_self _ _))
      | some j =>
        refine ⟨⟨?_, ?_⟩, ?_⟩
        · intro x hx
          simp only [WorkerThread.stepGetTask, getTask_cons] at hx
          exact hs.1 x (List.mem_cons_of_mem _ hx)
        · intro hret
          simp only [WorkerThread.stepGetTask, getTask_cons] at hret
          have hold := hs.2 (returned_of_replace (t := ⟨.atGetTask, inv⟩)
            (fun hpc => by simp at hpc) hret)
          simp at hold
        · simp [WorkerThread.stepGetTask, getTask_cons]
  | atExecute j => simpa [WorkerThread.stepGetTask] using hs
  | returned => simpa [WorkerThread.stepGetTask] using hs
  | aborted => simpa [WorkerThread.stepGetTask] using hs

theorem stepExecute_returned (t : WorkerThread) (h : t.stepExecute.pc = .returned) :
    t.pc = .returned := by
  obtain ⟨pc, inv⟩ := t
  cases pc with
  | atExecute j =>
    cases hj : j.throws
    · simp [WorkerThread.stepExecute, execute_ok j hj] at h
    · simp [WorkerThread.stepExecute, execute_error j hj] at h
  | atGetTask => simp [WorkerThread.stepExecute] at h
  | returned => rfl
  | aborted => simp [WorkerThread.stepExecute] at h

/-- One event of a run whose adds pass jobs and precede `stopProcessing` keeps
`Settled`, and the rest of the run is again such a run. -/
theorem step_settled (s : System) (e : Event) (es : List Event)
    (hes : addsBeforeStop s.taskQueue.stop (e :: es) = true) (hs : s.Settled) :
    (s.step e).Settled ∧ addsBeforeStop (s.step e).taskQueue.stop es = true := by
  obtain ⟨q, ws⟩ := s
  cases e with
  | addTask job =>
    simp only [addsBeforeStop, Bool.and_eq_true, Bool.not_eq_true', Option.isSome_iff_exists]
      at hes
    obtain ⟨⟨hstop, j, hj⟩, hrest⟩ := hes
    subst hj
    refine ⟨⟨?_, ?_⟩, hrest⟩
    · intro p hp
      simp only [System.step, TaskQueue.addTask, List.mem_append, List.mem_singleton] at hp
      rcases hp with hp | hp
      · exact hs.1 p hp
      · rw [hp]; simp
    · intro hret
      have hold := hs.2 hret
      rw [hstop] at hold
      simp at hold
  | stopProcessing =>
    simp only [addsBeforeStop] at hes
    refine ⟨⟨hs.1, ?_⟩, hes⟩
    intro hret
    exact ⟨rfl, (hs.2 hret).2⟩
  | getTask w =>
    simp only [addsBeforeStop] at hes
    cases hw : ws[w]? with
    | none => simpa [System.step, hw] using And.intro hs hes
    | some t =>
      obtain ⟨pre, post, hws, hset⟩ := workers_split hw
      subst hws
      have h := stepGetTask_settled q pre post t hs
      simp only [System.step, hw, hset]
      exact ⟨h.1, by rw [h.2]; exact hes⟩
  | execute w =>
    simp only [addsBeforeStop] at hes
    cases hw : ws[w]? with
    | none => simpa [System.step, hw] using And.intro hs hes
    | some t =>
      obtain ⟨pre, post, hws, hset⟩ := workers_split hw
      subst hws
      simp only [System.step, hw, hset]
      refine ⟨⟨hs.1, fun hret => ?_⟩, hes⟩
      exact hs.2 (returned_of_replace (stepExecute_returned t) hret)

theorem run_settled (es : List Event) (s : System)
    (hes : addsBeforeStop s.taskQueue.stop es = true) (hs : s.Settled) :
    (s.run es).Settled := by
  induction es generalizing s with
  | nil => exact hs
  | cons e es ih =>
    obtain ⟨h1, h2⟩ := step_settled s e es hes hs
    have h := ih (s.step e) h2 h1
    simpa only [System.run, List.foldl_cons] using h

theorem start_settled (P : Nat) : (System.start P).Settled := by
  refine ⟨by simp [System.start, TaskQueue.init], ?_⟩
  rintro ⟨t, ht, hpc⟩
  simp only [System.start, List.mem_replicate] at ht
  rw [ht.2] at hpc
  simp [WorkerThread.start] at hpc

/-- When every thread of a list has returned, what was handed out has been executed. -/
theorem handedBy_eq_invokedBy (ws : List WorkerThread) (h : ∀ t ∈ ws, t.pc = .returned) :
    handedBy ws = invokedBy ws := by
  induction ws with
  | nil => rfl
  | cons t ws ih =>
    have ht : t.pc = .returned := h t (List.mem_cons_self t ws)
    have hws : ∀ x ∈ ws, x.pc = .returned := fun x hx => h x (List.mem_cons_of_mem t hx)
    simp [handedBy, invokedBy, WorkerThread.handed, WorkerThread.held, ht, ih hws]

theorem handedBy_start (n : Nat) : handedBy (List.replicate n WorkerThread.start) = [] := by
  induction n with
  | zero => rfl
  | succ n ih =>
    rw [List.replicate_succ]
    simp only [handedBy, ih]
    rfl

end TaskScheduler
